import Mathlib

/-!
A verification development for the `aias` project-snapshot builder
(`src/file_management.py` and its callers).

The Python source is shallowly embedded: the filesystem a walk traverses is
an inductive tree of named entries, the snapshot store is an explicit record
of directories and files, and every partial operation returns `Except`.
All definitions are structural (no well-founded recursion), so concrete
inputs evaluate by `decide` / `rfl`.
-/

namespace Aias

/-! ## Python string primitives -/

/-- The whitespace set of Python `str.strip()` restricted to ASCII. -/
def isPyWS (c : Char) : Bool :=
  c == ' ' || c == '\t' || c == '\n' || c == '\r' || c == '\x0b' || c == '\x0c'

/-- Python `line.strip()`: drop leading and trailing whitespace. -/
def pyStrip (s : String) : String :=
  ⟨((s.data.dropWhile isPyWS).reverse.dropWhile isPyWS).reverse⟩

/-- Number of `os.sep` (`'/'`) characters in a string (`s.count(os.sep)`). -/
def sepCount (s : String) : Nat :=
  s.data.count '/'

/-- Split a character list at every occurrence of `c` (kernel-reducible
counterpart of `String.splitOn` with a one-character separator). -/
def splitOnChar (c : Char) : List Char → List (List Char)
  | [] => [[]]
  | d :: rest =>
      if d == c then [] :: splitOnChar c rest
      else
        match splitOnChar c rest with
        | [] => [[d]]
        | p :: ps => (d :: p) :: ps

/-- `s.split(c)` over strings. -/
def strSplitOn (c : Char) (s : String) : List String :=
  (splitOnChar c s.data).map (fun l => ⟨l⟩)

/-- `s.startswith(p)` (kernel-reducible counterpart of `String.startsWith`). -/
def strStartsWith (s p : String) : Bool :=
  p.data.isPrefixOf s.data

/-- `s.endswith(p)` (kernel-reducible counterpart of `String.endsWith`). -/
def strEndsWith (s p : String) : Bool :=
  p.data.isSuffixOf s.data

/-- `sep.join(l)` (kernel-reducible counterpart of `String.intercalate`). -/
def strIntercalate (sep : String) : List String → String
  | [] => ""
  | [s] => s
  | s :: t :: rest => s ++ sep ++ strIntercalate sep (t :: rest)

/-- `os.path.basename`: the part after the final `'/'`. -/
def basename (p : String) : String :=
  (strSplitOn '/' p).getLastD p

/-- `os.path.join(a, b)` for the relative-path shapes the walker produces. -/
def pyJoin (a b : String) : String :=
  if a = "" then b else if strEndsWith a "/" then a ++ b else a ++ "/" ++ b

/-- Strip every leading `"./"` from a character list. -/
def stripDS : List Char → List Char
  | '.' :: '/' :: rest => stripDS rest
  | l => l

/-- `os.path.relpath(p, start=".")` on already-relative, normalized inputs:
it removes any leading `"./"` segments and maps `"."`/`"./"` to `"."`.
(Absolute inputs, `".."` resolution and duplicate separators are outside the
shapes this program produces and are left untouched.) -/
def relpathDot (p : String) : String :=
  let q : List Char := stripDS p.data
  if q.isEmpty then "." else if q = ['.'] then "." else ⟨q⟩

/-- `os.path.dirname`-style parent of a path: everything before the last
`'/'`, `""` when the path has no separator. -/
def parentDir (p : String) : String :=
  let parts := strSplitOn '/' p
  if parts.length ≤ 1 then "" else strIntercalate "/" parts.dropLast

/-- The tree renderer's indentation unit, repeated: `"│   " * n`. -/
def indentStr : Nat → String
  | 0 => ""
  | n + 1 => "│   " ++ indentStr n

/-! ## Python `str.replace(pat, '')`

`generate_tree_structure` computes levels with
`root.replace(directory, '').count(os.sep)`.  The left-to-right,
non-overlapping erasure is implemented with explicit fuel so that it stays
structurally recursive; fuel `|s|` always suffices because every step
consumes at least one character of `s`. -/

def eraseGo (pat : List Char) : Nat → List Char → List Char
  | 0, s => s
  | _ + 1, [] => []
  | fuel + 1, c :: cs =>
      if pat.isPrefixOf (c :: cs) then eraseGo pat fuel (cs.drop (pat.length - 1))
      else c :: eraseGo pat fuel cs

/-- Python `s.replace(pat, '')` for nonempty `pat` (the empty pattern never
arises from a walk over a named directory). -/
def pyReplaceEmpty (s pat : String) : String :=
  if pat = "" then s else ⟨eraseGo pat.data s.data.length s.data⟩

/-- The `level` computed at each walk step:
`root.replace(directory, '').count(os.sep)`. -/
def pyLevel (directory root : String) : Nat :=
  sepCount (pyReplaceEmpty root directory)

/-! ## `fnmatch.translate` + `re.match` (full-string glob matching)

`fnmatch.translate` produces a regex anchored with `\Z`, and `re.match`
anchors at the start, so a pattern must match the whole string.  `*` matches
any characters including `'/'`, `?` any single character, and `[...]`
character classes with ranges, `!` negation, and a literal first `]`;
an unclosed `[` is a literal bracket. -/

/-- Scan to the closing `']'`, returning the content before it and the rest
after it. -/
def scanClose : List Char → Option (List Char × List Char)
  | [] => none
  | ']' :: rest => some ([], rest)
  | c :: rest =>
      match scanClose rest with
      | none => none
      | some (content, r) => some (c :: content, r)

/-- Split off a bracketed class (the characters after `'['`), mirroring the
scan in `fnmatch.translate`: an optional leading `'!'` negates, and a `']'`
in first content position is a literal member. -/
def splitClass (l : List Char) : Option (Bool × List Char × List Char) :=
  match l with
  | '!' :: ']' :: rest =>
      match scanClose rest with
      | none => none
      | some (content, r) => some (true, ']' :: content, r)
  | '!' :: rest =>
      match scanClose rest with
      | none => none
      | some (content, r) => some (true, content, r)
  | ']' :: rest =>
      match scanClose rest with
      | none => none
      | some (content, r) => some (false, ']' :: content, r)
  | _ =>
      match scanClose l with
      | none => none
      | some (content, r) => some (false, content, r)

/-- Membership of a character in class content, with `a-b` ranges. -/
def classMatch : List Char → Char → Bool
  | [], _ => false
  | a :: '-' :: b :: rest, c => (decide (a ≤ c) && decide (c ≤ b)) || classMatch rest c
  | a :: rest, c => (a == c) || classMatch rest c

/-- Full-string glob matching, fueled to stay structural; every step consumes
pattern or string, so fuel `|pat| + |s| + 1` suffices. -/
def globGo : Nat → List Char → List Char → Bool
  | 0, _, _ => false
  | _ + 1, [], s => s.isEmpty
  | fuel + 1, '*' :: ps, [] => globGo fuel ps []
  | fuel + 1, '*' :: ps, c :: cs =>
      globGo fuel ps (c :: cs) || globGo fuel ('*' :: ps) cs
  | _ + 1, '?' :: _, [] => false
  | fuel + 1, '?' :: ps, _ :: cs => globGo fuel ps cs
  | fuel + 1, '[' :: ps, s =>
      match splitClass ps with
      | none =>
          match s with
          | '[' :: cs => globGo fuel ps cs
          | _ => false
      | some (neg, content, rest) =>
          match s with
          | [] => false
          | c :: cs => (xor (classMatch content c) neg) && globGo fuel rest cs
  | _ + 1, _ :: _, [] => false
  | fuel + 1, p :: ps, c :: cs => p == c && globGo fuel ps cs

/-- `re.match(fnmatch.translate(pat), s)` viewed as a boolean: does the glob
`pat` match the whole of `s`? -/
def fnmatchRe (s pat : String) : Bool :=
  globGo (pat.length + s.length + 1) pat.data s.data

/-! ## `is_ignored` -/

/-- The pattern loop of `is_ignored`: first matching pattern returns `True`,
an exhausted loop returns `False`.  Each pattern is tried against the
relative path and against the relative path with a trailing separator
(`os.path.join(relative_path, '')`). -/
def anyMatch (rel : String) : List String → Bool
  | [] => false
  | pat :: rest =>
      if fnmatchRe rel pat || fnmatchRe (rel ++ "/") pat then true
      else anyMatch rel rest

/-- `is_ignored(path, ignore_patterns)`: the path is made relative to `"."`
(the process working directory), then tested against each pattern. -/
def is_ignored (path : String) (ignore_patterns : List String) : Bool :=
  anyMatch (relpathDot path) ignore_patterns

/-! ## `parse_gitignore` -/

/-- The line filter of `parse_gitignore`:
`[line.strip() for line in lines if line.strip() and not line.startswith('#')]`.
`f.readlines()` is modelled by splitting on `'\n'`; the retained newline of a
`readlines` line is immaterial here because `strip` removes it and
`startswith('#')` only looks at the first character. -/
def parse_gitignore_lines (content : String) : List String :=
  ((strSplitOn '\n' content).filter
    (fun line => !(pyStrip line == "") && !(strStartsWith line "#"))).map pyStrip

/-- Error kinds surfaced by the embedded operations. -/
inductive PyErr where
  | fileNotFound
  | snapshotNotFound
  deriving DecidableEq, Repr

/-- `parse_gitignore(ignore_file)`: `open` raises when the file is absent. -/
def parse_gitignore (fs : List (String × String)) (ignore_file : String) :
    Except PyErr (List String) :=
  match fs.lookup ignore_file with
  | none => Except.error PyErr.fileNotFound
  | some content => Except.ok (parse_gitignore_lines content)

/-! ## The walked directory tree

`Entry`/`Entries` form a mutual (non-nested) inductive so that every
traversal below is plain structural recursion and reduces in the kernel. -/

mutual
/-- A filesystem node visited by `os.walk`: a file with raw text content, or
a directory with an ordered listing of children (the enumeration order the
host filesystem yields). -/
inductive Entry where
  | file (name : String) (content : String)
  | dir (name : String) (children : Entries)

/-- An ordered directory listing. -/
inductive Entries where
  | nil
  | cons (e : Entry) (rest : Entries)
end

/-- Build a listing from a plain list of entries. -/
def entriesOfList : List Entry → Entries
  | [] => Entries.nil
  | e :: rest => Entries.cons e (entriesOfList rest)

/-- The name of an entry. -/
def entryName : Entry → String
  | Entry.file n _ => n
  | Entry.dir n _ => n

/-- Names of all entries of a listing, in order. -/
def entryNames : Entries → List String
  | Entries.nil => []
  | Entries.cons e rest => entryName e :: entryNames rest

/-- Subdirectory names of a listing, in order (the `dirs` of a walk triple). -/
def dirNames : Entries → List String
  | Entries.nil => []
  | Entries.cons (Entry.dir n _) rest => n :: dirNames rest
  | Entries.cons (Entry.file _ _) rest => dirNames rest

/-- `(name, content)` of the plain files of a listing, in order (the `files`
of a walk triple, paired with what `open(...).read()` would return). -/
def filePairs : Entries → List (String × String)
  | Entries.nil => []
  | Entries.cons (Entry.file n c) rest => (n, c) :: filePairs rest
  | Entries.cons (Entry.dir _ _) rest => filePairs rest

/-- File names of a listing, in order. -/
def fileNames : Entries → List String
  | Entries.nil => []
  | Entries.cons (Entry.file n _) rest => n :: fileNames rest
  | Entries.cons (Entry.dir _ _) rest => fileNames rest

/-- Well-formedness of a real directory listing: every name is nonempty,
contains no separator and no newline, sibling names are distinct, and
subtrees are well-formed. -/
def goodName (n : String) : Bool :=
  !(n == "") && !(n.data.contains '/') && !(n.data.contains '\n')

def wfEntries : Entries → Bool
  | Entries.nil => true
  | Entries.cons (Entry.file n _) rest =>
      goodName n && !((entryNames rest).contains n) && wfEntries rest
  | Entries.cons (Entry.dir n cs) rest =>
      goodName n && !((entryNames rest).contains n) && wfEntries cs && wfEntries rest

/-! ## `os.walk` and `generate_code_blocks` -/

/-- One triple yielded by `os.walk`. -/
structure WalkItem where
  root : String
  dirs : List String
  files : List (String × String)

/-- The walk items below a directory at path `path` with listing `l`
(top-down, subdirectories in listing order). -/
def walkList (path : String) : Entries → List WalkItem
  | Entries.nil => []
  | Entries.cons (Entry.file _ _) rest => walkList path rest
  | Entries.cons (Entry.dir n cs) rest =>
      (WalkItem.mk (pyJoin path n) (dirNames cs) (filePairs cs) :: walkList (pyJoin path n) cs)
        ++ walkList path rest

/-- `os.walk(directory)` over a directory whose listing is `children`. -/
def osWalk (directory : String) (children : Entries) : List WalkItem :=
  WalkItem.mk directory (dirNames children) (filePairs children) :: walkList directory children

/-- One block of `generate_code_blocks`:
`"\n".join([f"## File: {file_path}", "```python", file_content, "```", ""])`. -/
def mkCodeBlock (file_path content : String) : String :=
  strIntercalate "\n" ["## File: " ++ file_path, "```python", content, "```", ""]

/-- `generate_code_blocks(directory)`: walk every directory, and for every
file whose name ends in `".py"` emit a block; join all blocks with `"\n"`. -/
def generate_code_blocks (directory : String) (children : Entries) : String :=
  strIntercalate "\n"
    ((osWalk directory children).flatMap
      (fun item =>
        ((item.files.filter (fun fc => strEndsWith fc.1 ".py")).map
          (fun fc => mkCodeBlock (pyJoin item.root fc.1) fc.2))))

/-- No file anywhere in the listing has a name ending in `".py"`. -/
def noPyFiles : Entries → Bool
  | Entries.nil => true
  | Entries.cons (Entry.file n _) rest => !(strEndsWith n ".py") && noPyFiles rest
  | Entries.cons (Entry.dir _ cs) rest => noPyFiles cs && noPyFiles rest

/-- Specification-side collector: the `.py` files of the tree in walk order,
labelled with a ghost component path (`comps`, reversed list of names from
the walk root), the joined path the code prints, and the raw content. -/
def pyFilesDirs (directory : String) (pre : List String) : Entries → List (List String × String × String)
  | Entries.nil => []
  | Entries.cons (Entry.file _ _) rest => pyFilesDirs directory pre rest
  | Entries.cons (Entry.dir n cs) rest =>
      (((filePairs cs).filter (fun fc => strEndsWith fc.1 ".py")).map
        (fun fc => (fc.1 :: n :: pre, pyJoin (pyJoin directory n) fc.1, fc.2)))
        ++ pyFilesDirs (pyJoin directory n) (n :: pre) cs
        ++ pyFilesDirs directory pre rest

def pyFiles (directory : String) (children : Entries) : List (List String × String × String) :=
  (((filePairs children).filter (fun fc => strEndsWith fc.1 ".py")).map
    (fun fc => ([fc.1], pyJoin directory fc.1, fc.2)))
    ++ pyFilesDirs directory [] children

/-! ## The snapshot store (`save_*` / `load_*`) -/

/-- The on-disk state the cache functions touch: the set of existing
directories and the files with their contents. -/
structure FileStore where
  dirs : List String
  files : List (String × String)

/-- `os.path.exists(p)` over the store. -/
def pyExists (st : FileStore) (p : String) : Bool :=
  st.dirs.contains p || (st.files.map Prod.fst).contains p

/-- `os.makedirs("./data")` (its parent `"."` always exists). -/
def mkdirData (st : FileStore) : FileStore :=
  FileStore.mk ("./data" :: st.dirs) st.files

/-- The `if not os.path.exists("./data"): os.makedirs("./data")` step shared
by both save functions. -/
def ensureData (st : FileStore) : FileStore :=
  if pyExists st "./data" then st else mkdirData st

/-- Overwrite `p` with `content` in the file table. -/
def setFileStore (st : FileStore) (p content : String) : FileStore :=
  FileStore.mk st.dirs ((p, content) :: st.files.filter (fun kv => !(kv.1 == p)))

/-- `open(p, "w").write(content)`: succeeds when the parent directory of `p`
exists (a separator-free path is created in the working directory), raises
`FileNotFoundError` otherwise. -/
def writeFile (st : FileStore) (p content : String) : Except PyErr FileStore :=
  let d := parentDir p
  if d = "" ∨ d = "." ∨ st.dirs.contains d = true then Except.ok (setFileStore st p content)
  else Except.error PyErr.fileNotFound

/-- `save_code_blocks(code_blocks, file_path)`: a `None` content argument is
replaced by `generate_code_blocks()` over the working directory `cwd`;
`./data` is created when absent; the content is written to `file_path`; the
content and the path are returned. -/
def save_code_blocks (st : FileStore) (cwd : Entries)
    (code_blocks : Option String) (file_path : String) :
    Except PyErr (String × String × FileStore) :=
  let content := match code_blocks with
    | none => generate_code_blocks "." cwd
    | some c => c
  let st₁ := ensureData st
  match writeFile st₁ file_path content with
  | Except.ok st₂ => Except.ok (content, file_path, st₂)
  | Except.error e => Except.error e

/-- Modelled from the spec: `load_code_blocks` is imported by `aias.py` and
`src/chat_gpt.py` but its definition is absent from the repository.  Per the
spec, `load(path)` "reads and returns the full prior content verbatim; fails
with a not-found error if no snapshot was ever saved at that path". -/
def load_code_blocks (st : FileStore) (file_path : String) : Except PyErr String :=
  match st.files.lookup file_path with
  | some c => Except.ok c
  | none => Except.error PyErr.snapshotNotFound

/-! ## `generate_tree_structure`

The walk and the in-loop pruning (`dirs[:] = ...`) are fused into one
recursion, since the mutation controls which subdirectories `os.walk`
descends into.  Each rendered line carries two ghost labels used only by the
theorems: `comps`, the reversed list of entry names from the walk root
(identifying the entry), and `path`, the joined path the code manipulates. -/

/-- One appended line of the tree output with its ghost entry labels. -/
structure TLine where
  comps : List String
  path : String
  line : String
  deriving DecidableEq, Repr

/-- The `files` list after the `if ignore_patterns:` filtering step. -/
def visibleFiles (patterns : List String) (root : String) (l : Entries) : List String :=
  if patterns.isEmpty then fileNames l
  else (fileNames l).filter (fun f => !(is_ignored (pyJoin root f) patterns))

/-- The file lines of one directory: `enumerate` gives the last file the
`"└── "` connector and all earlier files `"├── "`, each after
`"│   " * level`. -/
def fileLinesI (root : String) (pre : List String) (level : Nat) : List String → List TLine
  | [] => []
  | [f] => [TLine.mk (f :: pre) (pyJoin root f) (indentStr level ++ "└── " ++ f)]
  | f :: g :: rest =>
      TLine.mk (f :: pre) (pyJoin root f) (indentStr level ++ "├── " ++ f)
        :: fileLinesI root pre level (g :: rest)

/-- The lines appended during one iteration of the walk loop, for the
directory at path `root` with listing `l`: the `level == 0` root line, or the
`is_ignored`-guarded directory line, then the filtered file lines. -/
def itemLines (directory : String) (patterns : List String) (root : String)
    (pre : List String) (l : Entries) : List TLine :=
  let level := pyLevel directory root
  let head : List TLine :=
    if level == 0 then [TLine.mk pre root (basename root ++ "/")]
    else if is_ignored root patterns then []
    else [TLine.mk pre root (indentStr (level - 1) ++ "├── " ++ basename root ++ "/")]
  head ++ fileLinesI root pre level (visibleFiles patterns root l)

/-- The lines of all walk iterations strictly below `root`: a subdirectory
pruned by `dirs[:] = ...` (only when the pattern list is nonempty) is neither
rendered nor descended into. -/
def renderSubs (directory : String) (patterns : List String) :
    String → List String → Entries → List TLine
  | _, _, Entries.nil => []
  | root, pre, Entries.cons (Entry.file _ _) rest => renderSubs directory patterns root pre rest
  | root, pre, Entries.cons (Entry.dir n cs) rest =>
      (if !patterns.isEmpty && is_ignored (pyJoin root n) patterns then []
       else itemLines directory patterns (pyJoin root n) (n :: pre) cs
              ++ renderSubs directory patterns (pyJoin root n) (n :: pre) cs)
        ++ renderSubs directory patterns root pre rest

/-- The full sequence of rendered lines for `os.walk(directory)`. -/
def renderTreeI (directory : String) (patterns : List String)
    (children : Entries) : List TLine :=
  itemLines directory patterns directory [] children
    ++ renderSubs directory patterns directory [] children

/-- `generate_tree_structure(directory, gitignore)`: a falsy `gitignore`
argument (modelled by `""`) skips `parse_gitignore`, otherwise the ignore
file is read (raising when absent); the rendered lines are joined with
`'\n'`. -/
def generate_tree_structure (fs : List (String × String)) (directory : String)
    (children : Entries) (gitignore : String) : Except PyErr String :=
  if gitignore = "" then
    Except.ok (strIntercalate "\n" ((renderTreeI directory [] children).map TLine.line))
  else
    match parse_gitignore fs gitignore with
    | Except.error e => Except.error e
    | Except.ok patterns =>
        Except.ok (strIntercalate "\n" ((renderTreeI directory patterns children).map TLine.line))

/-- `save_tree_structure(tree_structure, file_path)`: a `None` content
argument is replaced by `generate_tree_structure()` over the working
directory (which may itself fail); then the same ensure-`./data`-and-write
steps as `save_code_blocks`. -/
def save_tree_structure (st : FileStore) (fs : List (String × String)) (cwd : Entries)
    (tree_structure : Option String) (file_path : String) :
    Except PyErr (String × String × FileStore) :=
  let content? : Except PyErr String := match tree_structure with
    | none => generate_tree_structure fs "." cwd ".gitignore"
    | some t => Except.ok t
  match content? with
  | Except.error e => Except.error e
  | Except.ok content =>
      let st₁ := ensureData st
      match writeFile st₁ file_path content with
      | Except.ok st₂ => Except.ok (content, file_path, st₂)
      | Except.error e => Except.error e

/-! ## Claim-side definitions

These follow the words of the spec and the claims, to be compared with the
faithful definitions above. -/

/-- Claim-side file lines at a structural depth (C6's wording). -/
def fileLinesR (depth : Nat) : List String → List String
  | [] => []
  | [f] => [indentStr depth ++ "└── " ++ f]
  | f :: g :: rest => (indentStr depth ++ "├── " ++ f) :: fileLinesR depth (g :: rest)

/-- Claim-side renderer below the root (C6's wording): `d` is the structural
depth (distance from the walk root) of the directories in the listing; a
non-root directory at depth `d` is rendered as `"│   "*(d-1) ++ "├── " ++
basename ++ "/"`, its files at depth `d`, its subdirectories at `d+1`. -/
def depthSubs (patterns : List String) : String → Nat → Entries → List String
  | _, _, Entries.nil => []
  | root, d, Entries.cons (Entry.file _ _) rest => depthSubs patterns root d rest
  | root, d, Entries.cons (Entry.dir n cs) rest =>
      (if is_ignored (pyJoin root n) patterns then []
       else (indentStr (d - 1) ++ "├── " ++ basename (pyJoin root n) ++ "/")
              :: (fileLinesR d (visibleFiles patterns (pyJoin root n) cs)
                  ++ depthSubs patterns (pyJoin root n) (d + 1) cs))
        ++ depthSubs patterns root d rest

/-- Claim-side full render with structural depths. -/
def depthRenderTop (patterns : List String) (directory : String)
    (children : Entries) : List String :=
  (basename directory ++ "/")
    :: (fileLinesR 0 (visibleFiles patterns directory children)
        ++ depthSubs patterns directory 1 children)

/-- A tree entry with its ghost identity (`comps`), joined path, kind, name
and (for files) content. -/
structure EInfo where
  comps : List String
  path : String
  isDir : Bool
  name : String
  content : String
  deriving DecidableEq, Repr

/-- The surviving files of one listing, as entries. -/
def keptFilesE (patterns : List String) (root : String) (pre : List String)
    (l : Entries) : List EInfo :=
  ((filePairs l).filter
    (fun fc => !(!patterns.isEmpty && is_ignored (pyJoin root fc.1) patterns))).map
    (fun fc => EInfo.mk (fc.1 :: pre) (pyJoin root fc.1) false fc.1 fc.2)

/-- The surviving entries strictly below `root`, in render order (a matched
directory is dropped together with its whole subtree). -/
def survivorDirs (patterns : List String) : String → List String → Entries → List EInfo
  | _, _, Entries.nil => []
  | root, pre, Entries.cons (Entry.file _ _) rest => survivorDirs patterns root pre rest
  | root, pre, Entries.cons (Entry.dir n cs) rest =>
      (if is_ignored (pyJoin root n) patterns then []
       else EInfo.mk (n :: pre) (pyJoin root n) true n ""
              :: (keptFilesE patterns (pyJoin root n) (n :: pre) cs
                  ++ survivorDirs patterns (pyJoin root n) (n :: pre) cs))
        ++ survivorDirs patterns root pre rest

/-- All surviving non-root entries, in render order. -/
def survivorList (patterns : List String) (root : String) (pre : List String)
    (l : Entries) : List EInfo :=
  keptFilesE patterns root pre l ++ survivorDirs patterns root pre l

def survivorTop (patterns : List String) (directory : String)
    (children : Entries) : List EInfo :=
  survivorList patterns directory [] children

/-- All non-root entries of the tree: with no patterns nothing is filtered. -/
def allEntriesTop (directory : String) (children : Entries) : List EInfo :=
  survivorTop [] directory children

/-- The surviving entries in interleaved (listing) order — a permutation of
`survivorList` used to prove distinctness of the ghost identities. -/
def entriesIL (patterns : List String) : String → List String → Entries → List EInfo
  | _, _, Entries.nil => []
  | root, pre, Entries.cons (Entry.file n c) rest =>
      (if !patterns.isEmpty && is_ignored (pyJoin root n) patterns then []
       else [EInfo.mk (n :: pre) (pyJoin root n) false n c])
        ++ entriesIL patterns root pre rest
  | root, pre, Entries.cons (Entry.dir n cs) rest =>
      (if is_ignored (pyJoin root n) patterns then []
       else EInfo.mk (n :: pre) (pyJoin root n) true n ""
              :: entriesIL patterns (pyJoin root n) (n :: pre) cs)
        ++ entriesIL patterns root pre rest

/-- The path obtained by joining the reversed component list onto the walk
root, the way the traversal builds paths. -/
def compsPath (directory : String) (comps : List String) : String :=
  comps.reverse.foldl pyJoin directory

/-! ## Basic lemmas -/

theorem is_ignored_nil (p : String) : is_ignored p [] = false := rfl

theorem eraseGo_nil (pat : List Char) (fuel : Nat) : eraseGo pat fuel [] = [] := by
  cases fuel <;> rfl

/-- C8: with an empty ignore-pattern list, `is_ignored` is `False` on every
path, so nothing is ever filtered. -/
theorem is_ignored_empty_patterns (path : String) : is_ignored path [] = false := rfl

/-- The gitignore line filter, written as a fold following the claim's
wording: a line blank after stripping is skipped, a line whose first
character (before any stripping) is `'#'` is skipped, every other line is
kept stripped, in order. -/
theorem parse_filter_foldr (l : List String) :
    (l.filter (fun line => !(pyStrip line == "") && !(strStartsWith line "#"))).map pyStrip
      = l.foldr
          (fun line acc =>
            if pyStrip line = "" then acc
            else if strStartsWith line "#" then acc
            else pyStrip line :: acc) [] := by
  induction l with
  | nil => rfl
  | cons a t ih =>
      simp only [List.filter_cons, List.foldr_cons]
      by_cases h1 : pyStrip a = ""
      · simp [h1, ih]
      · by_cases h2 : strStartsWith a "#"
        · simp [h1, h2, ih]
        · simp [h1, h2, ih]

/-- C10: the parser treats a line as a comment only when its first character,
before any whitespace stripping, is `'#'`; a line of whitespace followed by
`'#'` is kept (stripped) as a pattern; lines blank after stripping are always
skipped; surviving lines keep their original order, duplicates preserved. -/
theorem parse_gitignore_comment_rule :
    (∀ content : String,
      parse_gitignore_lines content
        = (strSplitOn '\n' content).foldr
            (fun line acc =>
              if pyStrip line = "" then acc
              else if strStartsWith line "#" then acc
              else pyStrip line :: acc) [])
    ∧ parse_gitignore_lines "   # kept\n# skipped\n  \ndup\ndup" = ["# kept", "dup", "dup"] :=
  ⟨fun _ => parse_filter_foldr _, by decide⟩

/-! ## `generate_code_blocks` on trees without `.py` files (C9) -/

theorem filePairs_no_py : ∀ l : Entries, noPyFiles l = true →
    (filePairs l).filter (fun fc => strEndsWith fc.1 ".py") = []
  | Entries.nil, _ => rfl
  | Entries.cons (Entry.file n c) rest, h => by
      simp only [noPyFiles, Bool.and_eq_true] at h
      have hn : strEndsWith n ".py" = false := by simpa using h.1
      simp only [filePairs, List.filter_cons, hn]
      exact filePairs_no_py rest h.2
  | Entries.cons (Entry.dir m cs) rest, h => by
      simp only [noPyFiles, Bool.and_eq_true] at h
      simp only [filePairs]
      exact filePairs_no_py rest h.2

theorem walkList_no_py : ∀ (path : String) (l : Entries), noPyFiles l = true →
    (walkList path l).flatMap
      (fun item =>
        ((item.files.filter (fun fc => strEndsWith fc.1 ".py")).map
          (fun fc => mkCodeBlock (pyJoin item.root fc.1) fc.2))) = []
  | _, Entries.nil, _ => rfl
  | path, Entries.cons (Entry.file _ _) rest, h => by
      simp only [noPyFiles, Bool.and_eq_true] at h
      simp only [walkList]
      exact walkList_no_py path rest h.2
  | path, Entries.cons (Entry.dir n cs) rest, h => by
      simp only [noPyFiles, Bool.and_eq_true] at h
      simp only [walkList, List.flatMap_append, List.flatMap_cons]
      rw [filePairs_no_py cs h.1, walkList_no_py (pyJoin path n) cs h.1,
        walkList_no_py path rest h.2]
      rfl

/-- C9: a walk over a directory containing no file whose name ends in
`".py"` produces the empty string. -/
theorem code_blocks_empty_when_no_py (D : String) (children : Entries)
    (h : noPyFiles children = true) : generate_code_blocks D children = "" := by
  unfold generate_code_blocks osWalk
  simp only [List.flatMap_cons]
  rw [filePairs_no_py children h, walkList_no_py D children h]
  rfl

theorem code_blocks_empty_when_no_py_witness :
    noPyFiles (entriesOfList [Entry.file "notes.txt" "hi",
      Entry.dir "d" (entriesOfList [Entry.file "README.md" ""])]) = true
    ∧ generate_code_blocks "." (entriesOfList [Entry.file "notes.txt" "hi",
        Entry.dir "d" (entriesOfList [Entry.file "README.md" ""])]) = "" :=
  ⟨by decide, code_blocks_empty_when_no_py "." _ (by decide)⟩

/-! ## The snapshot round trip (C1) and the save contract (C5) -/

/-- C1: a successful `save` followed by `load` on the same path returns the
saved content verbatim (any content, including `""` and arbitrarily large
text), and `load` on a path where nothing was ever saved fails with the
not-found error. -/
theorem save_load_round_trip :
    (∀ (st : FileStore) (cwd : Entries) (content path : String)
        (out : String × String × FileStore),
        save_code_blocks st cwd (some content) path = Except.ok out →
        load_code_blocks out.2.2 path = Except.ok content)
    ∧ (∀ (st : FileStore) (path : String),
        st.files.lookup path = none →
        load_code_blocks st path = Except.error PyErr.snapshotNotFound) := by
  constructor
  · intro st cwd content path out h
    unfold save_code_blocks at h
    dsimp only at h
    split at h
    · next st₂ heq =>
        cases h
        unfold writeFile at heq
        dsimp only at heq
        split at heq
        · cases heq
          simp [load_code_blocks, setFileStore, List.lookup]
        · cases heq
    · next e heq => cases h
  · intro st path h
    simp [load_code_blocks, h]

theorem save_load_round_trip_witness :
    load_code_blocks (FileStore.mk ["./data", "."] [("./data/code_blocks.md", "hello")])
        "./data/code_blocks.md" = Except.ok "hello"
    ∧ load_code_blocks (FileStore.mk [] []) "./data/code_blocks.md"
        = Except.error PyErr.snapshotNotFound :=
  ⟨save_load_round_trip.1 (FileStore.mk ["."] []) Entries.nil "hello" "./data/code_blocks.md"
      ("hello", "./data/code_blocks.md",
        FileStore.mk ["./data", "."] [("./data/code_blocks.md", "hello")]) rfl,
    save_load_round_trip.2 (FileStore.mk [] []) "./data/code_blocks.md" rfl⟩

/-- C5 counterexample: `save` does not ensure the parent directory of the
target path exists — it only ever creates `./data`, so saving to a path
under another absent directory fails instead of creating it and writing. -/
theorem save_parent_dir_counterexample :
    save_code_blocks (FileStore.mk ["."] []) Entries.nil (some "x") "./other/x.md"
      = Except.error PyErr.fileNotFound := rfl

/-- C5 (amended): `save` ensures the fixed directory `./data` exists
(creating it when absent); and whenever the target path's parent directory
exists after that step (in particular for the default paths under `./data`),
it writes the content to the path, overwriting any prior contents, and
returns the content and the given path.  `save_tree_structure` behaves the
same way. -/
theorem save_ensures_data_amended :
    (∀ st : FileStore, pyExists st "./data" = false →
        (ensureData st).dirs.contains "./data" = true)
    ∧ (∀ (st : FileStore) (cwd : Entries) (content path : String),
        (parentDir path = "" ∨ parentDir path = "."
          ∨ (ensureData st).dirs.contains (parentDir path) = true) →
        save_code_blocks st cwd (some content) path
          = Except.ok (content, path, setFileStore (ensureData st) path content)
        ∧ (setFileStore (ensureData st) path content).files.lookup path = some content)
    ∧ (∀ (st : FileStore) (fs : List (String × String)) (cwd : Entries) (content path : String),
        (parentDir path = "" ∨ parentDir path = "."
          ∨ (ensureData st).dirs.contains (parentDir path) = true) →
        save_tree_structure st fs cwd (some content) path
          = Except.ok (content, path, setFileStore (ensureData st) path content)) := by
  refine ⟨fun st h => ?_, fun st cwd content path h => ⟨?_, ?_⟩, fun st fs cwd content path h => ?_⟩
  · simp [ensureData, h, mkdirData, List.contains_cons]
  · unfold save_code_blocks writeFile
    dsimp only
    rw [if_pos h]
  · simp [setFileStore, List.lookup]
  · unfold save_tree_structure writeFile
    dsimp only
    rw [if_pos h]

theorem save_ensures_data_amended_witness :
    (ensureData (FileStore.mk ["."] [])).dirs.contains "./data" = true
    ∧ save_code_blocks (FileStore.mk ["."] []) Entries.nil (some "tt") "./data/code_blocks.md"
        = Except.ok ("tt", "./data/code_blocks.md",
            setFileStore (ensureData (FileStore.mk ["."] [])) "./data/code_blocks.md" "tt")
    ∧ save_tree_structure (FileStore.mk ["."] []) [] Entries.nil (some "tr") "./data/tree_structure.md"
        = Except.ok ("tr", "./data/tree_structure.md",
            setFileStore (ensureData (FileStore.mk ["."] [])) "./data/tree_structure.md" "tr") :=
  ⟨save_ensures_data_amended.1 (FileStore.mk ["."] []) (by decide),
    (save_ensures_data_amended.2.1 (FileStore.mk ["."] []) Entries.nil "tt"
      "./data/code_blocks.md" (Or.inr (Or.inr (by decide)))).1,
    save_ensures_data_amended.2.2 (FileStore.mk ["."] []) [] Entries.nil "tr"
      "./data/tree_structure.md" (Or.inr (Or.inr (by decide)))⟩

/-! ## Missing ignore file (C7) -/

/-- C7 counterexample: with the default configured ignore-file path
`".gitignore"` and no such file present, the renderer raises the
file-not-found error instead of rendering the directory unfiltered. -/
theorem tree_missing_ignore_file_counterexample :
    generate_tree_structure [] "." (entriesOfList [Entry.file "a.py" "x=1"]) ".gitignore"
      = Except.error PyErr.fileNotFound := rfl

/-! ## The matcher is relative to the working directory, not the root (C4) -/

/-- Modelled from the claim's words: the position of `p` under the traversal
root `root` — the path made relative to that root. -/
def relTo (root p : String) : String :=
  if p = root then "."
  else if strStartsWith p (root ++ "/") then (⟨p.data.drop (root.length + 1)⟩ : String)
  else p

/-- C4 counterexample: two paths in the same position `"a.py"` under their
respective traversal roots `"."` and `"./sub"` get different matching
results, because the code makes paths relative to `"."` rather than to the
root the walk started from. -/
theorem matcher_root_counterexample :
    relTo "." "./a.py" = relTo "./sub" "./sub/a.py"
    ∧ is_ignored "./a.py" ["a.py"] = true
    ∧ is_ignored "./sub/a.py" ["a.py"] = false :=
  ⟨by decide, by decide, by decide⟩

/-- The pattern loop is the boolean "any" of the per-pattern test. -/
theorem anyMatch_eq_any (rel : String) :
    ∀ l : List String,
      anyMatch rel l = l.any (fun pat => fnmatchRe rel pat || fnmatchRe (rel ++ "/") pat)
  | [] => rfl
  | pat :: rest => by
      simp only [anyMatch, List.any_cons]
      cases h : (fnmatchRe rel pat || fnmatchRe (rel ++ "/") pat) <;>
        simp [h, anyMatch_eq_any rel rest]

/-- C4 (amended): `is_ignored` first makes the path relative to the process
working directory `"."` (not the traversal root argument), so its result
depends only on `relpathDot` of the path: it is the disjunction over the
patterns of a full glob match against that relative path, with or without a
trailing separator. -/
theorem matcher_relative_to_cwd_amended :
    (∀ (p₁ p₂ : String) (P : List String), relpathDot p₁ = relpathDot p₂ →
        is_ignored p₁ P = is_ignored p₂ P)
    ∧ (∀ (p : String) (P : List String),
        is_ignored p P = true ↔ ∃ pat ∈ P,
          fnmatchRe (relpathDot p) pat = true ∨ fnmatchRe (relpathDot p ++ "/") pat = true) := by
  constructor
  · intro p₁ p₂ P h
    unfold is_ignored
    rw [h]
  · intro p P
    unfold is_ignored
    rw [anyMatch_eq_any]
    simp [List.any_eq_true]

theorem matcher_relative_to_cwd_amended_witness :
    is_ignored "./x" ["x"] = is_ignored "x" ["x"] :=
  matcher_relative_to_cwd_amended.1 "./x" "x" ["x"] (by decide)

/-! ## Ghost-identity projections of the renderer (towards C3 and C7) -/

theorem pyLevel_self (D : String) : pyLevel D D = 0 := by
  unfold pyLevel pyReplaceEmpty
  by_cases h : D = ""
  · subst h; decide
  · rw [if_neg h]
    rcases hl : D.data with _ | ⟨c, cs⟩
    · exact absurd (String.ext hl) h
    · show (eraseGo (c :: cs) (c :: cs).length (c :: cs)).count '/' = 0
      simp only [List.length_cons, eraseGo, List.isPrefixOf_iff_prefix, List.prefix_refl,
        if_true, Nat.add_sub_cancel, List.drop_length, eraseGo_nil, List.count_nil]

theorem fileLinesI_comps (root : String) (pre : List String) (level : Nat) :
    ∀ names : List String,
      (fileLinesI root pre level names).map TLine.comps = names.map (fun f => f :: pre)
  | [] => rfl
  | [f] => rfl
  | f :: g :: rest => by
      simp only [fileLinesI, List.map_cons]
      rw [show (fileLinesI root pre level (g :: rest)).map TLine.comps
          = (g :: rest).map (fun f => f :: pre) from fileLinesI_comps root pre level (g :: rest)]
      rfl

theorem filePairs_filter_map {β : Type} (p : String → Bool) (g : String → β) :
    ∀ l : Entries,
      ((filePairs l).filter (fun fc => p fc.1)).map (fun fc => g fc.1)
        = ((fileNames l).filter p).map g
  | Entries.nil => rfl
  | Entries.cons (Entry.file n c) rest => by
      simp only [filePairs, fileNames, List.filter_cons]
      by_cases h : p n
      · simp only [h, if_true, List.map_cons]
        rw [filePairs_filter_map p g rest]
      · simp only [h, Bool.false_eq_true, if_false]
        exact filePairs_filter_map p g rest
  | Entries.cons (Entry.dir _ _) rest => by
      simp only [filePairs, fileNames]
      exact filePairs_filter_map p g rest

theorem filePairs_map {β : Type} (g : String → β) :
    ∀ l : Entries, (filePairs l).map (fun fc => g fc.1) = (fileNames l).map g
  | Entries.nil => rfl
  | Entries.cons (Entry.file n c) rest => by
      simp only [filePairs, fileNames, List.map_cons]
      rw [filePairs_map g rest]
  | Entries.cons (Entry.dir _ _) rest => by
      simp only [filePairs, fileNames]
      exact filePairs_map g rest

theorem keptFilesE_comps (P : List String) (root : String) (pre : List String) (l : Entries) :
    (keptFilesE P root pre l).map EInfo.comps
      = (visibleFiles P root l).map (fun f => f :: pre) := by
  unfold keptFilesE visibleFiles
  rw [List.map_map]
  by_cases hP : P.isEmpty
  · simp only [hP, if_true, Bool.not_true, Bool.false_and, Bool.not_false, List.filter_true]
    exact filePairs_map (fun f => f :: pre) l
  · have hP' : P.isEmpty = false := by simpa using hP
    simp only [hP', Bool.false_eq_true, if_false, Bool.not_false, Bool.true_and]
    exact filePairs_filter_map (fun s => !(is_ignored (pyJoin root s) P)) (fun f => f :: pre) l

theorem itemLines_comps (directory : String) (P : List String) (root : String)
    (pre : List String) (l : Entries)
    (h : pyLevel directory root = 0 ∨ is_ignored root P = false) :
    (itemLines directory P root pre l).map TLine.comps
      = pre :: (visibleFiles P root l).map (fun f => f :: pre) := by
  unfold itemLines
  dsimp only
  by_cases h0 : pyLevel directory root == 0
  · simp only [h0, if_true, List.map_append, List.map_cons, List.map_nil,
      fileLinesI_comps, List.cons_append, List.nil_append]
  · rcases h with h | h
    · exact absurd (by simp [h]) h0
    · simp only [h0, Bool.false_eq_true, if_false, h, List.map_append, List.map_cons,
        List.map_nil, fileLinesI_comps, List.cons_append, List.nil_append]

theorem renderSubs_comps (D : String) (P : List String) :
    ∀ (root : String) (pre : List String) (l : Entries),
      (renderSubs D P root pre l).map TLine.comps
        = (survivorDirs P root pre l).map EInfo.comps
  | root, pre, Entries.nil => rfl
  | root, pre, Entries.cons (Entry.file n c) rest => by
      simp only [renderSubs, survivorDirs]
      exact renderSubs_comps D P root pre rest
  | root, pre, Entries.cons (Entry.dir n cs) rest => by
      simp only [renderSubs, survivorDirs, List.map_append]
      rw [renderSubs_comps D P root pre rest]
      congr 1
      by_cases hig : is_ignored (pyJoin root n) P = true
      · have hPne : P.isEmpty = false := by
          cases hP : P.isEmpty
          · rfl
          · rw [List.isEmpty_iff.mp hP] at hig
            exact absurd hig (by simp [is_ignored_nil])
        simp [hig, hPne]
      · have hig' : is_ignored (pyJoin root n) P = false := by simpa using hig
        simp only [hig', Bool.and_false, Bool.false_eq_true, if_false, List.map_append,
          List.map_cons]
        rw [itemLines_comps D P (pyJoin root n) (n :: pre) cs (Or.inr hig'),
          keptFilesE_comps, renderSubs_comps D P (pyJoin root n) (n :: pre) cs]
        simp

theorem renderTree_comps (D : String) (P : List String) (children : Entries) :
    (renderTreeI D P children).map TLine.comps
      = [] :: (survivorTop P D children).map EInfo.comps := by
  unfold renderTreeI survivorTop survivorList
  rw [List.map_append, List.map_append,
    itemLines_comps D P D [] children (Or.inl (pyLevel_self D)),
    keptFilesE_comps, renderSubs_comps]
  simp

/-! ## No ignore-file argument: no filtering (C7 amended) -/

/-- C7 (amended): a falsy ignore-file argument (the only case the code
guards) skips filtering entirely: the renderer succeeds, and the rendered
entries are the root followed by every entry of the tree exactly in walk
order.  When a nonempty ignore-file path is configured but absent, the
renderer instead fails with a file-not-found error (the counterexample). -/
theorem tree_no_ignore_arg_amended :
    (∀ (fs : List (String × String)) (D : String) (children : Entries),
        generate_tree_structure fs D children ""
          = Except.ok (strIntercalate "\n" ((renderTreeI D [] children).map TLine.line)))
    ∧ (∀ (D : String) (children : Entries),
        (renderTreeI D [] children).map TLine.comps
          = [] :: (allEntriesTop D children).map EInfo.comps) := by
  constructor
  · intro fs D children
    unfold generate_tree_structure
    rw [if_pos rfl]
  · intro D children
    exact renderTree_comps D [] children

/-! ## Survivor entries: paths, non-matching, and distinct identities (C3) -/

theorem keptFilesE_not_ignored (P : List String) (root : String) (pre : List String)
    (l : Entries) : ∀ e ∈ keptFilesE P root pre l, is_ignored e.path P = false := by
  intro e he
  unfold keptFilesE at he
  rw [List.mem_map] at he
  obtain ⟨fc, hfc, rfl⟩ := he
  rw [List.mem_filter] at hfc
  show is_ignored (pyJoin root fc.1) P = false
  by_cases hP : P.isEmpty
  · rw [List.isEmpty_iff.mp hP]
    exact is_ignored_nil _
  · have hP' : P.isEmpty = false := by simpa using hP
    have h2 := hfc.2
    rw [hP'] at h2
    simpa using h2

theorem survivorDirs_not_ignored (P : List String) :
    ∀ (root : String) (pre : List String) (l : Entries),
      ∀ e ∈ survivorDirs P root pre l, is_ignored e.path P = false
  | root, pre, Entries.nil => by intro e he; simp [survivorDirs] at he
  | root, pre, Entries.cons (Entry.file n c) rest => by
      intro e he
      simp only [survivorDirs] at he
      exact survivorDirs_not_ignored P root pre rest e he
  | root, pre, Entries.cons (Entry.dir n cs) rest => by
      intro e he
      simp only [survivorDirs] at he
      rw [List.mem_append] at he
      rcases he with he | he
      · by_cases hig : is_ignored (pyJoin root n) P = true
        · rw [if_pos hig] at he
          cases he
        · have hig' : is_ignored (pyJoin root n) P = false := by simpa using hig
          rw [if_neg (by simp [hig'])] at he
          rcases List.mem_cons.mp he with rfl | he
          · exact hig'
          · rcases List.mem_append.mp he with he | he
            · exact keptFilesE_not_ignored P (pyJoin root n) (n :: pre) cs e he
            · exact survivorDirs_not_ignored P (pyJoin root n) (n :: pre) cs e he
      · exact survivorDirs_not_ignored P root pre rest e he

theorem survivorTop_not_ignored (P : List String) (D : String) (children : Entries) :
    ∀ e ∈ survivorTop P D children, is_ignored e.path P = false := by
  intro e he
  rcases List.mem_append.mp he with he | he
  · exact keptFilesE_not_ignored P D [] children e he
  · exact survivorDirs_not_ignored P D [] children e he

theorem compsPath_cons (D : String) (pre : List String) (n : String) :
    compsPath D (n :: pre) = pyJoin (compsPath D pre) n := by
  unfold compsPath
  rw [List.reverse_cons, List.foldl_append]
  rfl

theorem keptFilesE_path (D : String) (P : List String) (root : String) (pre : List String)
    (l : Entries) (hroot : root = compsPath D pre) :
    ∀ e ∈ keptFilesE P root pre l, e.path = compsPath D e.comps := by
  intro e he
  unfold keptFilesE at he
  rw [List.mem_map] at he
  obtain ⟨fc, hfc, rfl⟩ := he
  show pyJoin root fc.1 = compsPath D (fc.1 :: pre)
  rw [compsPath_cons, hroot]

theorem survivorDirs_path (D : String) (P : List String) :
    ∀ (root : String) (pre : List String) (l : Entries), root = compsPath D pre →
      ∀ e ∈ survivorDirs P root pre l, e.path = compsPath D e.comps
  | root, pre, Entries.nil, _ => by intro e he; simp [survivorDirs] at he
  | root, pre, Entries.cons (Entry.file n c) rest, hroot => by
      intro e he
      simp only [survivorDirs] at he
      exact survivorDirs_path D P root pre rest hroot e he
  | root, pre, Entries.cons (Entry.dir n cs) rest, hroot => by
      intro e he
      have hjoin : pyJoin root n = compsPath D (n :: pre) := by
        rw [compsPath_cons, hroot]
      simp only [survivorDirs] at he
      rw [List.mem_append] at he
      rcases he with he | he
      · by_cases hig : is_ignored (pyJoin root n) P = true
        · rw [if_pos hig] at he
          cases he
        · rw [if_neg (by simp [(by simpa using hig : is_ignored (pyJoin root n) P = false)])] at he
          rcases List.mem_cons.mp he with rfl | he
          · exact hjoin
          · rcases List.mem_append.mp he with he | he
            · exact keptFilesE_path D P (pyJoin root n) (n :: pre) cs hjoin e he
            · exact survivorDirs_path D P (pyJoin root n) (n :: pre) cs hjoin e he
      · exact survivorDirs_path D P root pre rest hroot e he

theorem survivorTop_path (D : String) (P : List String) (children : Entries) :
    ∀ e ∈ survivorTop P D children, e.path = compsPath D e.comps := by
  intro e he
  rcases List.mem_append.mp he with he | he
  · exact keptFilesE_path D P D [] children rfl e he
  · exact survivorDirs_path D P D [] children rfl e he

theorem keptFilesE_cons_file (P : List String) (root : String) (pre : List String)
    (n c : String) (rest : Entries) :
    keptFilesE P root pre (Entries.cons (Entry.file n c) rest)
      = (if !P.isEmpty && is_ignored (pyJoin root n) P then []
         else [EInfo.mk (n :: pre) (pyJoin root n) false n c])
        ++ keptFilesE P root pre rest := by
  unfold keptFilesE
  simp only [filePairs, List.filter_cons]
  cases hb : (!P.isEmpty && is_ignored (pyJoin root n) P) <;> simp [hb]

theorem keptFilesE_cons_dir (P : List String) (root : String) (pre : List String)
    (n : String) (cs rest : Entries) :
    keptFilesE P root pre (Entries.cons (Entry.dir n cs) rest)
      = keptFilesE P root pre rest := rfl

theorem survivor_perm_IL (P : List String) :
    ∀ (root : String) (pre : List String) (l : Entries),
      List.Perm (survivorList P root pre l) (entriesIL P root pre l)
  | root, pre, Entries.nil => by
      simp [survivorList, keptFilesE, filePairs, survivorDirs, entriesIL]
  | root, pre, Entries.cons (Entry.file n c) rest => by
      unfold survivorList
      rw [keptFilesE_cons_file]
      simp only [survivorDirs, entriesIL, List.append_assoc]
      exact List.Perm.append_left _ (survivor_perm_IL P root pre rest)
  | root, pre, Entries.cons (Entry.dir n cs) rest => by
      unfold survivorList
      rw [keptFilesE_cons_dir]
      simp only [survivorDirs, entriesIL]
      by_cases hig : is_ignored (pyJoin root n) P = true
      · rw [if_pos hig, if_pos hig]
        simpa using survivor_perm_IL P root pre rest
      · rw [if_neg (by simpa using hig), if_neg (by simpa using hig)]
        refine List.Perm.trans (List.perm_append_comm_assoc _ _ _) ?_
        exact List.Perm.append
          (List.Perm.cons _ (survivor_perm_IL P (pyJoin root n) (n :: pre) cs))
          (survivor_perm_IL P root pre rest)

/-- Ghost identities collected over a well-formed listing are distinct, and
each extends `pre` by at least one component whose innermost name is an entry
of the listing. -/
theorem entriesIL_nodup_shape (P : List String) :
    ∀ (root : String) (pre : List String) (l : Entries), wfEntries l = true →
      ((entriesIL P root pre l).map EInfo.comps).Nodup
      ∧ (∀ id ∈ (entriesIL P root pre l).map EInfo.comps,
          ∃ front n, id = front ++ n :: pre ∧ n ∈ entryNames l)
  | root, pre, Entries.nil, _ => by
      constructor
      · simp [entriesIL]
      · intro id hid
        simp [entriesIL] at hid
  | root, pre, Entries.cons (Entry.file n c) rest, h => by
      simp only [wfEntries, Bool.and_eq_true, Bool.not_eq_true'] at h
      obtain ⟨⟨hg, hnc⟩, hrest⟩ := h
      have hnotin : n ∉ entryNames rest := by
        intro hmem
        have hco : (entryNames rest).contains n = true := by
          simpa [List.contains] using List.elem_iff.mpr hmem
        rw [hco] at hnc
        cases hnc
      obtain ⟨ndR, shR⟩ := entriesIL_nodup_shape P root pre rest hrest
      simp only [entriesIL]
      by_cases hcond : (!P.isEmpty && is_ignored (pyJoin root n) P) = true
      · rw [if_pos hcond]
        simp only [List.nil_append]
        refine ⟨ndR, ?_⟩
        intro id hid
        obtain ⟨front, m, heq, hm⟩ := shR id hid
        exact ⟨front, m, heq, List.mem_cons_of_mem _ hm⟩
      · rw [if_neg hcond]
        simp only [List.singleton_append, List.map_cons]
        constructor
        · rw [List.nodup_cons]
          refine ⟨?_, ndR⟩
          intro hmem
          obtain ⟨front, m, heq, hm⟩ := shR _ hmem
          have hlen := congrArg List.length heq
          simp only [List.length_cons, List.length_append] at hlen
          have hfront : front = [] := List.eq_nil_of_length_eq_zero (by omega)
          subst hfront
          rw [List.nil_append, List.cons.injEq] at heq
          exact hnotin (heq.1 ▸ hm)
        · intro id hid
          rcases List.mem_cons.mp hid with rfl | hid
          · exact ⟨[], n, rfl, List.mem_cons_self _ _⟩
          · obtain ⟨front, m, heq, hm⟩ := shR id hid
            exact ⟨front, m, heq, List.mem_cons_of_mem _ hm⟩
  | root, pre, Entries.cons (Entry.dir n cs) rest, h => by
      simp only [wfEntries, Bool.and_eq_true, Bool.not_eq_true'] at h
      obtain ⟨⟨⟨hg, hnc⟩, hwcs⟩, hwrest⟩ := h
      have hnotin : n ∉ entryNames rest := by
        intro hmem
        have hco : (entryNames rest).contains n = true := by
          simpa [List.contains] using List.elem_iff.mpr hmem
        rw [hco] at hnc
        cases hnc
      obtain ⟨ndC, shC⟩ := entriesIL_nodup_shape P (pyJoin root n) (n :: pre) cs hwcs
      obtain ⟨ndR, shR⟩ := entriesIL_nodup_shape P root pre rest hwrest
      simp only [entriesIL]
      by_cases hig : is_ignored (pyJoin root n) P = true
      · rw [if_pos hig]
        simp only [List.nil_append]
        refine ⟨ndR, ?_⟩
        intro id hid
        obtain ⟨front, m, heq, hm⟩ := shR id hid
        exact ⟨front, m, heq, List.mem_cons_of_mem _ hm⟩
      · rw [if_neg hig]
        simp only [List.map_append, List.map_cons, List.cons_append]
        constructor
        · rw [List.nodup_cons]
          constructor
          · intro hmem
            rcases List.mem_append.mp hmem with hmem | hmem
            · obtain ⟨front, m, heq, _⟩ := shC _ hmem
              have hlen := congrArg List.length heq
              simp only [List.length_cons, List.length_append] at hlen
              omega
            · obtain ⟨front, m, heq, hm⟩ := shR _ hmem
              have hlen := congrArg List.length heq
              simp only [List.length_cons, List.length_append] at hlen
              have hfront : front = [] := List.eq_nil_of_length_eq_zero (by omega)
              subst hfront
              rw [List.nil_append, List.cons.injEq] at heq
              exact hnotin (heq.1 ▸ hm)
          · rw [List.nodup_append]
            refine ⟨ndC, ndR, ?_⟩
            intro id hidC hidR
            obtain ⟨f, m, heqC, _⟩ := shC id hidC
            obtain ⟨g, m', heqR, hmR⟩ := shR id hidR
            have heq : (f ++ [m] ++ [n]) ++ pre = (g ++ [m']) ++ pre := by
              have := heqC.symm.trans heqR
              simp only [List.append_assoc, List.cons_append, List.nil_append,
                List.singleton_append] at this ⊢
              exact this
            have heq2 : f ++ [m] ++ [n] = g ++ [m'] := List.append_cancel_right heq
            have hlast : n = m' := by
              have hg2 := congrArg List.getLast? heq2
              rw [List.getLast?_concat, List.getLast?_concat] at hg2
              exact Option.some.inj hg2
            exact hnotin (hlast ▸ hmR)
        · intro id hid
          rcases List.mem_cons.mp hid with rfl | hid
          · exact ⟨[], n, rfl, List.mem_cons_self _ _⟩
          · rcases List.mem_append.mp hid with hid | hid
            · obtain ⟨f, m, heq, _⟩ := shC id hid
              refine ⟨f ++ [m], n, ?_, List.mem_cons_self _ _⟩
              rw [heq]
              simp [List.append_assoc]
            · obtain ⟨f, m, heq, hm⟩ := shR id hid
              exact ⟨f, m, heq, List.mem_cons_of_mem _ hm⟩

/-- `count` of a member of a duplicate-free list is one (stated over the
`BEq` instance the development uses). -/
theorem count_eq_one_of_nodup_mem {α : Type} [BEq α] [LawfulBEq α] {l : List α} {a : α}
    (nd : l.Nodup) (h : a ∈ l) : l.count a = 1 := by
  induction l with
  | nil => cases h
  | cons b t ih =>
      rw [List.nodup_cons] at nd
      rcases List.mem_cons.mp h with rfl | h
      · rw [List.count_cons_self, List.count_eq_zero.mpr nd.1]
      · have hne : a ≠ b := fun he => nd.1 (he ▸ h)
        rw [List.count_cons_of_ne hne, ih nd.2 h]

/-- C3 counterexample: with pattern set `["b"]` over `.` containing
`b/keep.txt`, the file `keep.txt` is matched by no pattern, yet it appears
zero times in the output (its parent directory is pruned before descent), so
"every entry not matched appears exactly once" fails as stated. -/
theorem tree_filter_counterexample :
    is_ignored "./b/keep.txt" ["b"] = false
    ∧ (renderTreeI "." ["b"] (entriesOfList
        [Entry.dir "b" (entriesOfList [Entry.file "keep.txt" ""])])).map TLine.line = ["./"]
    ∧ ((renderTreeI "." ["b"] (entriesOfList
        [Entry.dir "b" (entriesOfList [Entry.file "keep.txt" ""])])).map TLine.path).count
          "./b/keep.txt" = 0 :=
  ⟨by decide, by decide, by decide⟩

/-- C3 (amended): over a well-formed listing, the rendered entries are
exactly the root followed by the surviving entries — those not matched whose
ancestors below the root are also not matched.  Consequently a matched
non-root entry never appears, the root appears exactly once (even when
matched), and every surviving entry appears exactly once; an unmatched entry
below a matched directory is pruned away with it and does not appear. -/
theorem tree_filter_amended (D : String) (P : List String) (children : Entries)
    (hwf : wfEntries children = true) :
    ((renderTreeI D P children).map TLine.comps
        = [] :: (survivorTop P D children).map EInfo.comps)
    ∧ (∀ e ∈ allEntriesTop D children, is_ignored e.path P = true →
        ((renderTreeI D P children).map TLine.comps).count e.comps = 0)
    ∧ ((renderTreeI D P children).map TLine.comps).count [] = 1
    ∧ (∀ e ∈ survivorTop P D children,
        ((renderTreeI D P children).map TLine.comps).count e.comps = 1) := by
  have hml2 := renderTree_comps D P children
  have hperm : List.Perm ((survivorTop P D children).map EInfo.comps)
      ((entriesIL P D [] children).map EInfo.comps) :=
    (survivor_perm_IL P D [] children).map EInfo.comps
  obtain ⟨ndIL, shIL⟩ := entriesIL_nodup_shape P D [] children hwf
  have ndS : ((survivorTop P D children).map EInfo.comps).Nodup :=
    hperm.nodup_iff.mpr ndIL
  have hne_nil : ∀ id ∈ (survivorTop P D children).map EInfo.comps, id ≠ [] := by
    intro id hid hnil
    obtain ⟨front, n, heq, -⟩ := shIL id (hperm.mem_iff.mp hid)
    rw [hnil] at heq
    have hlen := congrArg List.length heq
    simp only [List.length_nil, List.length_append, List.length_cons] at hlen
    omega
  have hperm0 : List.Perm ((allEntriesTop D children).map EInfo.comps)
      ((entriesIL [] D [] children).map EInfo.comps) :=
    (survivor_perm_IL [] D [] children).map EInfo.comps
  obtain ⟨-, shIL0⟩ := entriesIL_nodup_shape [] D [] children hwf
  have hne_nil0 : ∀ e ∈ allEntriesTop D children, e.comps ≠ [] := by
    intro e he hnil
    obtain ⟨front, n, heq, -⟩ :=
      shIL0 e.comps (hperm0.mem_iff.mp (List.mem_map_of_mem EInfo.comps he))
    rw [hnil] at heq
    have hlen := congrArg List.length heq
    simp only [List.length_nil, List.length_append, List.length_cons] at hlen
    omega
  refine ⟨hml2, ?_, ?_, ?_⟩
  · intro e he hig
    rw [hml2, List.count_cons_of_ne (hne_nil0 e he)]
    apply List.count_eq_zero.mpr
    intro hmem
    obtain ⟨e', he', hc⟩ := List.mem_map.mp hmem
    have h1 : e'.path = compsPath D e'.comps := survivorTop_path D P children e' he'
    have h2 : is_ignored e'.path P = false := survivorTop_not_ignored P D children e' he'
    have h0 : e.path = compsPath D e.comps := survivorTop_path D [] children e he
    rw [h1, hc, ← h0] at h2
    rw [h2] at hig
    cases hig
  · rw [hml2, List.count_cons_self]
    have hz : ((survivorTop P D children).map EInfo.comps).count [] = 0 :=
      List.count_eq_zero.mpr (fun hmem => hne_nil [] hmem rfl)
    rw [hz]
  · intro e he
    have hmem : e.comps ∈ (survivorTop P D children).map EInfo.comps :=
      List.mem_map_of_mem EInfo.comps he
    rw [hml2, List.count_cons_of_ne (hne_nil e.comps hmem)]
    exact count_eq_one_of_nodup_mem ndS hmem

theorem tree_filter_amended_witness :
    wfEntries (entriesOfList [Entry.file "z.txt" "",
        Entry.dir "b" (entriesOfList [Entry.file "keep.txt" ""])]) = true
    ∧ ((renderTreeI "." ["b"] (entriesOfList [Entry.file "z.txt" "",
        Entry.dir "b" (entriesOfList [Entry.file "keep.txt" ""])])).map TLine.comps).count [] = 1
    ∧ ((renderTreeI "." ["b"] (entriesOfList [Entry.file "z.txt" "",
        Entry.dir "b" (entriesOfList [Entry.file "keep.txt" ""])])).map TLine.comps).count
          ["z.txt"] = 1
    ∧ ((renderTreeI "." ["b"] (entriesOfList [Entry.file "z.txt" "",
        Entry.dir "b" (entriesOfList [Entry.file "keep.txt" ""])])).map TLine.comps).count
          ["b"] = 0 :=
  ⟨by decide,
    (tree_filter_amended "." ["b"]
      (entriesOfList [Entry.file "z.txt" "",
        Entry.dir "b" (entriesOfList [Entry.file "keep.txt" ""])]) (by decide)).2.2.1,
    (tree_filter_amended "." ["b"]
      (entriesOfList [Entry.file "z.txt" "",
        Entry.dir "b" (entriesOfList [Entry.file "keep.txt" ""])]) (by decide)).2.2.2
      (EInfo.mk ["z.txt"] "./z.txt" false "z.txt" "") (by decide),
    (tree_filter_amended "." ["b"]
      (entriesOfList [Entry.file "z.txt" "",
        Entry.dir "b" (entriesOfList [Entry.file "keep.txt" ""])]) (by decide)).2.1
      (EInfo.mk ["b"] "./b" true "b" "") (by decide) (by decide)⟩

/-! ## `generate_code_blocks` characterization (C2) -/

theorem blocks_walkList :
    ∀ (path : String) (pre : List String) (l : Entries),
      (walkList path l).flatMap
        (fun item =>
          ((item.files.filter (fun fc => strEndsWith fc.1 ".py")).map
            (fun fc => mkCodeBlock (pyJoin item.root fc.1) fc.2)))
        = (pyFilesDirs path pre l).map (fun t => mkCodeBlock t.2.1 t.2.2)
  | _, _, Entries.nil => rfl
  | path, pre, Entries.cons (Entry.file _ _) rest => by
      simp only [walkList, pyFilesDirs]
      exact blocks_walkList path pre rest
  | path, pre, Entries.cons (Entry.dir n cs) rest => by
      simp only [walkList, pyFilesDirs, List.flatMap_append, List.flatMap_cons,
        List.map_append, List.map_map]
      rw [blocks_walkList (pyJoin path n) (n :: pre) cs, blocks_walkList path pre rest]
      rfl

theorem pyFiles_blocks (D : String) (children : Entries) :
    generate_code_blocks D children
      = strIntercalate "\n" ((pyFiles D children).map (fun t => mkCodeBlock t.2.1 t.2.2)) := by
  unfold generate_code_blocks osWalk pyFiles
  simp only [List.flatMap_cons, List.map_append, List.map_map]
  rw [blocks_walkList D [] children]
  rfl

theorem keptFilesE_nil_filter (root : String) (pre : List String) (l : Entries) :
    ((keptFilesE [] root pre l).filter
        (fun e => !e.isDir && strEndsWith e.name ".py")).map
        (fun e => (e.comps, e.path, e.content))
      = ((filePairs l).filter (fun fc => strEndsWith fc.1 ".py")).map
          (fun fc => (fc.1 :: pre, pyJoin root fc.1, fc.2)) := by
  unfold keptFilesE
  simp only [List.isEmpty_nil, Bool.not_true, Bool.false_and, Bool.not_false,
    List.filter_true, List.filter_map, List.map_map]
  congr 1

theorem pyFilesDirs_eq_filter :
    ∀ (path : String) (pre : List String) (l : Entries),
      pyFilesDirs path pre l
        = ((survivorDirs [] path pre l).filter
            (fun e => !e.isDir && strEndsWith e.name ".py")).map
            (fun e => (e.comps, e.path, e.content))
  | _, _, Entries.nil => rfl
  | path, pre, Entries.cons (Entry.file n c) rest => by
      simp only [pyFilesDirs, survivorDirs]
      exact pyFilesDirs_eq_filter path pre rest
  | path, pre, Entries.cons (Entry.dir n cs) rest => by
      simp only [pyFilesDirs, survivorDirs]
      rw [if_neg (by simp [is_ignored_nil])]
      simp only [List.filter_cons, Bool.not_true, Bool.false_and, Bool.false_eq_true,
        if_false, List.filter_append, List.map_append, keptFilesE_nil_filter]
      rw [pyFilesDirs_eq_filter (pyJoin path n) (n :: pre) cs,
        pyFilesDirs_eq_filter path pre rest]

theorem pyFiles_eq_filter (D : String) (children : Entries) :
    pyFiles D children
      = ((allEntriesTop D children).filter
          (fun e => !e.isDir && strEndsWith e.name ".py")).map
          (fun e => (e.comps, e.path, e.content)) := by
  unfold pyFiles allEntriesTop survivorTop survivorList
  rw [List.filter_append, List.map_append, keptFilesE_nil_filter,
    pyFilesDirs_eq_filter D [] children]

/-- C2: the concatenator applies no ignore filtering — its output is the
join of exactly one block per `.py`-suffixed file, in traversal order; a
block is the header line naming the file's path, the opening fence, the raw
content, the closing fence, and a blank separator (`mkCodeBlock`); files
matched by any ignore-pattern set still contribute their block; and over a
well-formed listing each `.py` file yields exactly one block. -/
theorem code_blocks_spec :
    (∀ (D : String) (children : Entries),
        generate_code_blocks D children
          = strIntercalate "\n" ((pyFiles D children).map (fun t => mkCodeBlock t.2.1 t.2.2)))
    ∧ (∀ (p c : String),
        mkCodeBlock p c = "## File: " ++ p ++ "\n```python\n" ++ c ++ "\n```\n")
    ∧ (∀ (D : String) (children : Entries) (P : List String)
        (t : List String × String × String), t ∈ pyFiles D children →
        is_ignored t.2.1 P = true →
        mkCodeBlock t.2.1 t.2.2
          ∈ (pyFiles D children).map (fun u => mkCodeBlock u.2.1 u.2.2))
    ∧ (∀ (D : String) (children : Entries), wfEntries children = true →
        ∀ t ∈ pyFiles D children,
          ((pyFiles D children).map (fun u => u.1)).count t.1 = 1) := by
  refine ⟨pyFiles_blocks, ?_, ?_, ?_⟩
  · intro p c
    apply String.ext
    simp [mkCodeBlock, strIntercalate, String.data_append, List.append_assoc]
  · intro D children P t ht _
    exact List.mem_map_of_mem _ ht
  · intro D children hwf t ht
    have hnodup : ((pyFiles D children).map (fun u => u.1)).Nodup := by
      rw [pyFiles_eq_filter, List.map_map]
      have hsub : List.Sublist
          (((allEntriesTop D children).filter
            (fun e => !e.isDir && strEndsWith e.name ".py")).map EInfo.comps)
          ((allEntriesTop D children).map EInfo.comps) :=
        List.Sublist.map _ (List.filter_sublist _)
      have hnd : ((allEntriesTop D children).map EInfo.comps).Nodup := by
        have hperm : List.Perm ((allEntriesTop D children).map EInfo.comps)
            ((entriesIL [] D [] children).map EInfo.comps) :=
          (survivor_perm_IL [] D [] children).map EInfo.comps
        exact hperm.nodup_iff.mpr (entriesIL_nodup_shape [] D [] children hwf).1
      exact List.Nodup.sublist hsub hnd
    exact count_eq_one_of_nodup_mem hnodup (List.mem_map_of_mem _ ht)

theorem code_blocks_spec_witness :
    mkCodeBlock "./secret.py" "s" ∈ (pyFiles "."
        (entriesOfList [Entry.file "a.py" "x=1", Entry.file "secret.py" "s"])).map
        (fun u => mkCodeBlock u.2.1 u.2.2)
    ∧ ((pyFiles "." (entriesOfList [Entry.file "a.py" "x=1", Entry.file "secret.py" "s"])).map
        (fun u => u.1)).count ["secret.py"] = 1 :=
  ⟨code_blocks_spec.2.2.1 "."
      (entriesOfList [Entry.file "a.py" "x=1", Entry.file "secret.py" "s"]) ["secret.py"]
      (["secret.py"], "./secret.py", "s") (by decide) (by decide),
    code_blocks_spec.2.2.2 "."
      (entriesOfList [Entry.file "a.py" "x=1", Entry.file "secret.py" "s"]) (by decide)
      (["secret.py"], "./secret.py", "s") (by decide)⟩

/-! ## Depth and indentation (C6) -/

/-- Erasing a separator-free nonempty pattern does not change the number of
separators in a string. -/
theorem count_eraseGo (pat : List Char) (hne : pat ≠ []) (hcnt : pat.count '/' = 0) :
    ∀ (fuel : Nat) (s : List Char), s.length ≤ fuel →
      (eraseGo pat fuel s).count '/' = s.count '/'
  | 0, s, hle => by
      have hs : s = [] := List.eq_nil_of_length_eq_zero (Nat.le_zero.mp hle)
      subst hs
      rfl
  | _ + 1, [], _ => rfl
  | fuel + 1, c :: cs, hle => by
      simp only [eraseGo]
      by_cases hp : pat.isPrefixOf (c :: cs) = true
      · rw [if_pos hp]
        obtain ⟨t, ht⟩ := List.isPrefixOf_iff_prefix.mp hp
        obtain ⟨m, hm⟩ : ∃ m, pat.length = m + 1 := by
          cases hpl : pat.length with
          | zero => exact absurd (List.eq_nil_of_length_eq_zero hpl) hne
          | succ k => exact ⟨k, rfl⟩
        have hdrop : cs.drop (pat.length - 1) = t := by
          have hdl : (pat ++ t).drop pat.length = t := List.drop_left pat t
          rw [ht] at hdl
          rw [hm] at hdl ⊢
          simpa using hdl
        rw [hdrop]
        have hlen := congrArg List.length ht
        rw [List.length_append, List.length_cons] at hlen
        have hle2 : cs.length + 1 ≤ fuel + 1 := by
          simpa [List.length_cons] using hle
        have hlt : t.length ≤ fuel := by omega
        rw [count_eraseGo pat hne hcnt fuel t hlt, ← ht, List.count_append, hcnt,
          Nat.zero_add]
      · rw [if_neg hp]
        simp only [List.count_cons]
        rw [count_eraseGo pat hne hcnt fuel cs (by
          simpa using Nat.le_of_succ_le_succ hle)]

/-- When the walk-root string contains no separator, the `replace`-based
level of any path is just that path's separator count. -/
theorem pyLevel_eq_sepCount (D p : String) (hne : D ≠ "") (hsl : sepCount D = 0) :
    pyLevel D p = sepCount p := by
  unfold pyLevel pyReplaceEmpty sepCount
  rw [if_neg hne]
  show (eraseGo D.data p.data.length p.data).count '/' = p.data.count '/'
  exact count_eraseGo D.data (fun hnil => hne (String.ext hnil)) hsl p.data.length
    p.data (Nat.le_refl _)

theorem mem_of_endsWith_slash (s : String) (h : strEndsWith s "/" = true) :
    '/' ∈ s.data := by
  obtain ⟨t, ht⟩ := List.isSuffixOf_iff_suffix.mp h
  rw [← ht]
  exact List.mem_append.mpr (Or.inr (by simp))

theorem endsWith_slash_of_append (a n : String) (hn : n.data ≠ [])
    (hnsl : n.data.count '/' = 0) : strEndsWith (a ++ "/" ++ n) "/" = false := by
  cases hb : strEndsWith (a ++ "/" ++ n) "/"
  · rfl
  · exfalso
    have hmem : '/' ∈ (a ++ "/" ++ n).data := mem_of_endsWith_slash _ hb
    obtain ⟨t, ht⟩ := List.isSuffixOf_iff_suffix.mp hb
    have hlast := congrArg List.getLast? ht
    rw [List.getLast?_concat] at hlast
    rw [String.data_append, List.getLast?_append] at hlast
    rcases hx : n.data.getLast? with _ | x
    · exact hn (List.getLast?_eq_none_iff.mp hx)
    · rw [hx] at hlast
      have hx' : ('/' : Char) = x := Option.some.inj hlast
      have hxmem : x ∈ n.data := List.mem_of_getLast?_eq_some hx
      rw [← hx'] at hxmem
      rw [List.count_eq_zero] at hnsl
      exact hnsl hxmem

theorem pyJoin_eq (root n : String) (h1 : root ≠ "")
    (h2 : strEndsWith root "/" = false) : pyJoin root n = root ++ "/" ++ n := by
  unfold pyJoin
  rw [if_neg h1, if_neg (by simp [h2])]

theorem sepCount_append3 (a n : String) :
    sepCount (a ++ "/" ++ n) = sepCount a + 1 + sepCount n := by
  unfold sepCount
  simp [String.data_append, List.count_append]
  omega

theorem append_slash_ne_empty (a n : String) : a ++ "/" ++ n ≠ "" := by
  intro h
  have hlen := congrArg (fun s => s.data.length) h
  simp [String.data_append] at hlen

theorem fileLinesI_lines (root : String) (pre : List String) (level : Nat) :
    ∀ names : List String,
      (fileLinesI root pre level names).map TLine.line = fileLinesR level names
  | [] => rfl
  | [f] => rfl
  | f :: g :: rest => by
      simp only [fileLinesI, fileLinesR, List.map_cons]
      rw [show (fileLinesI root pre level (g :: rest)).map TLine.line
          = fileLinesR level (g :: rest) from fileLinesI_lines root pre level (g :: rest)]

theorem goodName_parts (n : String) (h : goodName n = true) :
    n.data ≠ [] ∧ n.data.count '/' = 0 := by
  unfold goodName at h
  simp only [Bool.and_eq_true, Bool.not_eq_true'] at h
  obtain ⟨⟨h1, h2⟩, -⟩ := h
  constructor
  · intro hnil
    rw [String.ext hnil] at h1
    simp at h1
  · rw [List.count_eq_zero]
    intro hm
    have hel : n.data.contains '/' = true := by
      simpa [List.contains] using List.elem_iff.mpr hm
    rw [hel] at h2
    cases h2

theorem renderSubs_lines (D : String) (P : List String) (hD : D ≠ "")
    (hDs : sepCount D = 0) :
    ∀ (l : Entries) (root : String) (pre : List String) (d : Nat),
      wfEntries l = true → root ≠ "" → strEndsWith root "/" = false →
      sepCount root = d - 1 → 1 ≤ d →
      (renderSubs D P root pre l).map TLine.line = depthSubs P root d l
  | Entries.nil, _, _, _, _, _, _, _, _ => rfl
  | Entries.cons (Entry.file n c) rest, root, pre, d, hwf, h1, h2, h3, h4 => by
      simp only [wfEntries, Bool.and_eq_true] at hwf
      simp only [renderSubs, depthSubs]
      exact renderSubs_lines D P hD hDs rest root pre d hwf.2 h1 h2 h3 h4
  | Entries.cons (Entry.dir n cs) rest, root, pre, d, hwf, h1, h2, h3, h4 => by
      simp only [wfEntries, Bool.and_eq_true] at hwf
      obtain ⟨⟨⟨hg, -⟩, hwcs⟩, hwrest⟩ := hwf
      obtain ⟨hnne, hnsl⟩ := goodName_parts n hg
      have hjoin : pyJoin root n = root ++ "/" ++ n := pyJoin_eq root n h1 h2
      have hsep : sepCount (pyJoin root n) = d := by
        rw [hjoin, sepCount_append3, h3]
        have hz : sepCount n = 0 := hnsl
        rw [hz]
        omega
      have hlev : pyLevel D (pyJoin root n) = d :=
        (pyLevel_eq_sepCount D (pyJoin root n) hD hDs).trans hsep
      have hne' : pyJoin root n ≠ "" := by
        rw [hjoin]
        exact append_slash_ne_empty root n
      have hend' : strEndsWith (pyJoin root n) "/" = false := by
        rw [hjoin]
        exact endsWith_slash_of_append root n hnne hnsl
      simp only [renderSubs, depthSubs, List.map_append]
      rw [renderSubs_lines D P hD hDs rest root pre d hwrest h1 h2 h3 h4]
      congr 1
      by_cases hig : is_ignored (pyJoin root n) P = true
      · have hPne : P.isEmpty = false := by
          cases hP : P.isEmpty
          · rfl
          · rw [List.isEmpty_iff.mp hP] at hig
            exact absurd hig (by simp [is_ignored_nil])
        simp [hig, hPne]
      · have hig' : is_ignored (pyJoin root n) P = false := by simpa using hig
        rw [if_neg (by simp [hig']), if_neg (by simp [hig'])]
        rw [List.map_append]
        have hitem : (itemLines D P (pyJoin root n) (n :: pre) cs).map TLine.line
            = (indentStr (d - 1) ++ "├── " ++ basename (pyJoin root n) ++ "/")
              :: fileLinesR d (visibleFiles P (pyJoin root n) cs) := by
          unfold itemLines
          dsimp only
          rw [hlev]
          rw [if_neg (by simp only [beq_iff_eq]; omega)]
          rw [if_neg (by simp [hig'])]
          simp only [List.singleton_append, List.map_cons, fileLinesI_lines]
        rw [hitem,
          renderSubs_lines D P hD hDs cs (pyJoin root n) (n :: pre) (d + 1) hwcs hne' hend'
            (by rw [hsep]; omega) (by omega)]
        simp [List.cons_append]

/-- C6 counterexample: with walk root `"a/b"` and nested path
`a/b/x/a/b`, `replace` erases the second occurrence of the root string, so
the directory `b` at depth 3 is rendered at level 2 — its line and its
file's line carry one indentation unit too few, and the output differs from
the depth-faithful rendering. -/
theorem tree_depth_counterexample :
    (renderTreeI "a/b" [] (entriesOfList [Entry.dir "x" (entriesOfList
        [Entry.dir "a" (entriesOfList [Entry.dir "b" (entriesOfList
          [Entry.file "f.txt" ""])])])])).map TLine.line
      = ["b/", "├── x/", "│   ├── a/", "│   ├── b/", "│   │   └── f.txt"]
    ∧ depthRenderTop [] "a/b" (entriesOfList [Entry.dir "x" (entriesOfList
        [Entry.dir "a" (entriesOfList [Entry.dir "b" (entriesOfList
          [Entry.file "f.txt" ""])])])])
      = ["b/", "├── x/", "│   ├── a/", "│   │   ├── b/", "│   │   │   └── f.txt"]
    ∧ (renderTreeI "a/b" [] (entriesOfList [Entry.dir "x" (entriesOfList
        [Entry.dir "a" (entriesOfList [Entry.dir "b" (entriesOfList
          [Entry.file "f.txt" ""])])])])).map TLine.line
      ≠ depthRenderTop [] "a/b" (entriesOfList [Entry.dir "x" (entriesOfList
        [Entry.dir "a" (entriesOfList [Entry.dir "b" (entriesOfList
          [Entry.file "f.txt" ""])])])]) :=
  ⟨by decide, by decide, by decide⟩

/-- C6 (amended): provided the walk root's path string contains no
separator (as the default `"."` does), every file line at depth `d` is
`"│   "*d` followed by `"└── "` for the last surviving file of its
directory's listing and `"├── "` for the others, and every non-root
non-ignored directory at depth `d` is `"│   "*(d-1) ++ "├── " ++ basename
++ "/"` — the rendered lines coincide with the depth-faithful rendering. -/
theorem tree_depth_amended (D : String) (P : List String) (children : Entries)
    (hD : D ≠ "") (hDs : sepCount D = 0) (hwf : wfEntries children = true) :
    (renderTreeI D P children).map TLine.line = depthRenderTop P D children := by
  unfold renderTreeI depthRenderTop
  rw [List.map_append]
  have hend : strEndsWith D "/" = false := by
    cases hb : strEndsWith D "/"
    · rfl
    · exfalso
      have hmem := mem_of_endsWith_slash D hb
      have hz : D.data.count '/' = 0 := hDs
      rw [List.count_eq_zero] at hz
      exact hz hmem
  have hitem : (itemLines D P D [] children).map TLine.line
      = (basename D ++ "/") :: fileLinesR 0 (visibleFiles P D children) := by
    unfold itemLines
    dsimp only
    rw [pyLevel_self D]
    rw [if_pos (by simp)]
    simp only [List.singleton_append, List.map_cons, fileLinesI_lines]
  rw [hitem,
    renderSubs_lines D P hD hDs children D [] 1 hwf hD hend (by rw [hDs]) (Nat.le_refl 1)]
  simp [List.cons_append]

theorem tree_depth_amended_witness :
    (renderTreeI "." ["b"] (entriesOfList [Entry.file "z.py" "",
        Entry.dir "d" (entriesOfList [Entry.file "u" "", Entry.file "v" ""])])).map TLine.line
      = depthRenderTop ["b"] "." (entriesOfList [Entry.file "z.py" "",
        Entry.dir "d" (entriesOfList [Entry.file "u" "", Entry.file "v" ""])]) :=
  tree_depth_amended "." ["b"]
    (entriesOfList [Entry.file "z.py" "",
      Entry.dir "d" (entriesOfList [Entry.file "u" "", Entry.file "v" ""])])
    (by decide) (by decide) (by decide)

end Aias
